import Mathlib

/-!
Shallow embedding of `src/app.js` (smzdm-node keyword monitor) and proofs
checking the natural-language specification against it.

Conventions of the embedding:
* JS numbers carrying parsed text are modelled as `Option ℚ`, with `none`
  playing the role of `NaN`; every JS comparison involving a possible `NaN`
  is spelled out (`NaN < x`, `NaN >= x`, … are all `false`).
* JS machine integers (timestamps from `Date.now()`, epoch seconds) are
  modelled as `Int`; JS truthiness of a number is `≠ 0`.
* The history object `pushedMap` is an association list `List (String × Int)`;
  property read is `hfind`, property write is `hset` (replace in place when
  the key exists, append otherwise), matching JS object semantics.
* `fs`/`axios` I/O is abstracted at the call boundary: the search endpoint is
  an oracle `Nat → PageResult` giving, per page index, either the rows of a
  successful response or a request error; `fs.writeFileSync` makes
  `savePushed` return the map it persists.
* String functions (`toLowerCase`, `includes`, `startsWith`, `substring`,
  one-shot `replace`) are modelled over `List Char`; `toLowerCase` uses the
  ASCII case table (all titles and keywords in the specification's test
  vectors are ASCII or CJK, where the two tables agree).
-/

/-- Whitespace skipped by the JS `parseInt` / `parseFloat` front end
(ASCII subset of the WhiteSpace/LineTerminator productions). -/
def jsWs (c : Char) : Bool :=
  c == ' ' || c == '\t' || c == '\n' || c == '\r' ||
    c == Char.ofNat 11 || c == Char.ofNat 12

/-- Value of a list of decimal digit characters, most significant first. -/
def digitsVal (ds : List Char) : Nat :=
  ds.foldl (fun n c => 10 * n + (c.toNat - 48)) 0

/-- Core of JS `parseFloat` after sign handling: longest prefix of the form
`digits [. digits]` or `. digits`; `none` models `NaN` (no digits at all).
Exponent suffixes and `Infinity` are outside the modelled fragment (no input
of this program produces them). -/
def parseFloatCore (cs : List Char) : Option ℚ :=
  let intPart := cs.takeWhile Char.isDigit
  let rest := cs.dropWhile Char.isDigit
  match rest with
  | '.' :: rest2 =>
    let fracPart := rest2.takeWhile Char.isDigit
    if intPart.isEmpty && fracPart.isEmpty then none
    else some ((digitsVal intPart : ℚ) + (digitsVal fracPart : ℚ) / (10 : ℚ) ^ fracPart.length)
  | _ => if intPart.isEmpty then none else some (digitsVal intPart : ℚ)

/-- Optional leading sign, as in JS `StrNumericLiteral`. -/
def parseSignQ : List Char → ℚ × List Char
  | '-' :: rest => (-1, rest)
  | '+' :: rest => (1, rest)
  | cs => (1, cs)

/-- JS `parseFloat`: skip whitespace, optional sign, longest decimal prefix;
`none` models `NaN`. -/
def parseFloatJS (s : String) : Option ℚ :=
  let cs := s.toList.dropWhile jsWs
  let (sgn, cs2) := parseSignQ cs
  (parseFloatCore cs2).map (fun q => sgn * q)

/-- JS `parseInt` with no radix argument on decimal input: skip whitespace,
optional sign, longest run of decimal digits; `none` models `NaN`.
(The `0x` prefix detection is outside the modelled fragment.) -/
def parseIntJS (s : String) : Option Int :=
  let cs := s.toList.dropWhile jsWs
  let (sgn, cs2) :=
    match cs with
    | '-' :: rest => ((-1 : Int), rest)
    | '+' :: rest => ((1 : Int), rest)
    | _ => ((1 : Int), cs)
  let ds := cs2.takeWhile Char.isDigit
  if ds.isEmpty then none else some (sgn * (digitsVal ds : Int))

/-- Contiguous-sublist test over character lists. -/
def listInfixOf (needle hay : List Char) : Bool :=
  hay.tails.any (fun t => List.isPrefixOf needle t)

/-- JS `hay.includes(needle)` (substring containment). -/
def includesStr (hay needle : String) : Bool :=
  listInfixOf needle.toList hay.toList

/-- JS `toLowerCase`, ASCII table (agrees with JS on ASCII and on CJK,
which has no case). -/
def lowerStr (s : String) : String := String.mk (s.toList.map Char.toLower)

/-- JS `s.startsWith(p)`. -/
def startsWithStr (s p : String) : Bool := List.isPrefixOf p.toList s.toList

/-- JS `s.substring(n)` for an ASCII prefix (drop the first `n` characters). -/
def dropStr (s : String) (n : Nat) : String := String.mk (s.toList.drop n)

/-- Character class of the regex `/[0-9.]+/` used by `parsePrice`. -/
def isNumCh (c : Char) : Bool := c.isDigit || c == '.'

/-- First maximal run matched by `/[0-9.]+/`, i.e. `priceStr.match(/[0-9.]+/)`. -/
def firstNumRun : List Char → Option (List Char)
  | [] => none
  | c :: rest =>
    if isNumCh c then some (c :: rest.takeWhile isNumCh) else firstNumRun rest

/-- Embeds `SmzdmCrawler.parsePrice` (src/app.js:141-145).
`none` argument is JS `undefined`/`null`; `some ""` is the falsy empty string.
The result `none` models a `NaN` return (regex matched only dots). -/
def parsePrice (priceStr : Option String) : Option ℚ :=
  match priceStr with
  | none => some 0
  | some s =>
    if s = "" then some 0
    else
      match firstNumRun s.toList with
      | none => some 0
      | some run => parseFloatJS (String.mk run)

/-- Embeds `SmzdmCrawler.parseCount` (src/app.js:147-154): lowercase, then a
`k`/`万` suffix multiplies `parseFloat` by 1000 (`NaN` propagates as `none`);
otherwise `parseInt(str) || 0`. -/
def parseCount (countStr : Option String) : Option ℚ :=
  match countStr with
  | none => some 0
  | some s =>
    if s = "" then some 0
    else
      let str := lowerStr s
      if includesStr str "k" || includesStr str "万" then
        (parseFloatJS str).map (fun q => q * 1000)
      else some (((parseIntJS str).getD 0 : Int) : ℚ)

/-- Atom of the modelled regular-expression fragment: a literal character or
the `.` wildcard. The program's patterns come from user configuration; the
claims exercise literal patterns and invalid ones. -/
inductive RAtom where
  | rlit (c : Char)
  | rdot
deriving DecidableEq, Repr

/-- Metacharacters whose constructs are outside the modelled regex fragment.
`(`, `)` and `[` unmatched, and quantifiers with nothing to repeat, are also
genuine `SyntaxError`s in JS. -/
def regexMeta (c : Char) : Bool :=
  c == '(' || c == ')' || c == '[' || c == ']' || c == '{' || c == '}' ||
    c == '*' || c == '+' || c == '?' || c == '|' || c == '^' || c == '$'

/-- Escape sequences of the modelled fragment: control escapes and identity
escapes of non-alphanumeric characters. Other alphanumeric escapes are
outside the fragment. -/
def escAtom (c : Char) : Option RAtom :=
  if c == 'n' then some (.rlit '\n')
  else if c == 't' then some (.rlit '\t')
  else if c == 'r' then some (.rlit '\r')
  else if c == 'f' then some (.rlit (Char.ofNat 12))
  else if c == 'v' then some (.rlit (Char.ofNat 11))
  else if c == '0' then some (.rlit (Char.ofNat 0))
  else if c.isAlphanum then none
  else some (.rlit c)

/-- Compilation of a pattern string, modelling `new RegExp(pattern, flags)`:
`none` models a thrown `SyntaxError` (or a construct outside the modelled
fragment), `some atoms` a compiled literal-sequence regex. -/
def compileRegex : List Char → Option (List RAtom)
  | [] => some []
  | '\\' :: [] => none
  | '\\' :: e :: rest2 =>
    match escAtom e with
    | some a => (compileRegex rest2).map (fun l => a :: l)
    | none => none
  | c :: rest =>
    if c == '.' then (compileRegex rest).map (fun l => RAtom.rdot :: l)
    else if regexMeta c then none
    else (compileRegex rest).map (fun l => RAtom.rlit c :: l)

/-- One atom against one character; `ci` is the `i` flag (ASCII folding,
as in `lowerStr`). `.` excludes the JS line terminators. -/
def atomMatches (ci : Bool) (a : RAtom) (c : Char) : Bool :=
  match a with
  | .rlit l => if ci then l.toLower == c.toLower else l == c
  | .rdot =>
    !(c == '\n' || c == '\r' || c == Char.ofNat 8232 || c == Char.ofNat 8233)

/-- Anchored match of an atom sequence at the head of a character list. -/
def matchHere (ci : Bool) : List RAtom → List Char → Bool
  | [], _ => true
  | _ :: _, [] => false
  | a :: ats, c :: cs => atomMatches ci a c && matchHere ci ats cs

/-- JS `RegExp.prototype.test`: unanchored search over every start position. -/
def regexTest (ci : Bool) (ats : List RAtom) (title : String) : Bool :=
  title.toList.tails.any (matchHere ci ats)

/-- Drop the first occurrence of `needle` from a character list, modelling
the single-replacement JS `String.prototype.replace` with `''`. -/
def dropFirstOcc (needle : List Char) : List Char → List Char
  | [] => []
  | c :: cs =>
    if List.isPrefixOf needle (c :: cs) then List.drop needle.length (c :: cs)
    else c :: dropFirstOcc needle cs

/-- JS `s.replace(needle, '')` for a plain-string `needle` (first occurrence
only). -/
def removeFirst (s needle : String) : String :=
  String.mk (dropFirstOcc needle.toList s.toList)

/-- The `flags = 'i'` decision of `isTitleMatch`: does the pattern body
(after the `re:` marker) contain the `(?i)` marker? -/
def hasCIFlag (k : String) : Bool := includesStr (dropStr k 3) "(?i)"

/-- The pattern actually handed to `new RegExp` by `isTitleMatch`: the
keyword after `re:`, with the first `(?i)` removed when present. -/
def regexPatternOf (k : String) : String :=
  let p := dropStr k 3
  if includesStr p "(?i)" then removeFirst p "(?i)" else p

/-- One keyword-monitoring rule, after `ConfigManager.load` has merged
defaults (src/app.js:38-55). Absent YAML fields are `none` (`undefined`). -/
structure Rule where
  keyword : Option String := none
  searchKey : Option String := none
  filterWords : Option (List String) := none
  minPrice : Option ℚ := none
  maxPrice : Option ℚ := none
  lowCommentNum : Option ℚ := none
  lowWorthyNum : Option ℚ := none
deriving DecidableEq, Repr

/-- One row of the search endpoint's response, restricted to the fields the
program reads (`filterProduct` copies exactly these seven). Human-formatted
numeric fields and the epoch string may be absent (`none` = `undefined`). -/
structure Product where
  article_title : String
  article_price : Option String
  article_worthy : Option String
  article_comment : Option String
  article_id : String
  publish_date_lt : Option String
  article_url : String
deriving DecidableEq, Repr

/-- The active configuration, restricted to the fields the crawl loop reads:
the rule list and the early-stop threshold (`none` = field absent). -/
structure Config where
  keywords : List Rule := []
  satisfyNum : Option ℚ := none
deriving DecidableEq, Repr

/-- Embeds `SmzdmCrawler.isTitleMatch` (src/app.js:156-175): empty or absent
keyword matches everything; a `re:`-keyword strips the marker, turns an
embedded `(?i)` into the `i` flag and tests the rest as a regex, a compile
failure (the `catch`) giving `false`; otherwise a case-insensitive literal
substring test. -/
def isTitleMatch (title : String) (rule : Rule) : Bool :=
  match rule.keyword with
  | none => true
  | some key =>
    if key = "" then true
    else if startsWithStr key "re:" then
      match compileRegex (regexPatternOf key).toList with
      | none => false
      | some ats => regexTest (hasCIFlag key) ats title
    else includesStr (lowerStr title) (lowerStr key)

/-- The in-memory `pushedMap`: a JS object from article id to first-seen
timestamp (epoch milliseconds). -/
abbrev History := List (String × Int)

/-- JS property read `pushedMap[id]`: value of the (unique) matching key. -/
def hfind : History → String → Option Int
  | [], _ => none
  | (k', v') :: rest, k => if k' = k then some v' else hfind rest k

/-- JS property write `pushedMap[id] = v`: replace the value in place when
the key exists, append a new own property otherwise. -/
def hset : History → String → Int → History
  | [], k, v => [(k, v)]
  | (k', v') :: rest, k, v =>
    if k' = k then (k', v) :: rest else (k', v') :: hset rest k v

/-- JS truthiness of `pushedMap[id]`: the property exists and its number
value is nonzero. -/
def truthyOpt (o : Option Int) : Bool :=
  match o with
  | some v => !(v == 0)
  | none => false

/-- The `NaN`-aware `<` against a plain number (left side may be `NaN`). -/
def qlt (o : Option ℚ) (v : ℚ) : Bool :=
  match o with
  | some p => decide (p < v)
  | none => false

/-- The `NaN`-aware `>` against a plain number (left side may be `NaN`). -/
def qgt (o : Option ℚ) (v : ℚ) : Bool :=
  match o with
  | some p => decide (v < p)
  | none => false

/-- Steps 2-5 of `SmzdmCrawler.filterProduct` (src/app.js:203-227), the
checks after deduplication: recency window (2 days in milliseconds; an
unparsable epoch gives an invalid date, and `NaN < limit` is `false`),
excluded words (case-sensitive substring, only when `filterWords` is
present), title match, then numeric thresholds with JS truthiness on
`minPrice`/`maxPrice` and `|| 0` on the engagement minima. On success the
source copies the seven read fields into a fresh object; on this `Product`
model that projection is written out field by field. -/
def filterRest (now : Int) (p : Product) (rule : Rule) : Option Product :=
  let pd : Option Int :=
    match p.publish_date_lt with
    | none => none
    | some s => parseIntJS s
  if (match pd with
      | some t => decide (t * 1000 < now - 2 * 24 * 60 * 60 * 1000)
      | none => false) then none
  else if (match rule.filterWords with
      | some ws => ws.any (fun w => includesStr p.article_title w)
      | none => false) then none
  else if !(isTitleMatch p.article_title rule) then none
  else
    let price := parsePrice p.article_price
    let comments := parseCount p.article_comment
    let worthy := parseCount p.article_worthy
    if (match rule.minPrice with
        | some v => !(v == 0) && qlt price v
        | none => false) then none
    else if (match rule.maxPrice with
        | some v => !(v == 0) && qgt price v
        | none => false) then none
    else if qlt comments ((rule.lowCommentNum).getD 0) then none
    else if qlt worthy ((rule.lowWorthyNum).getD 0) then none
    else some
      { article_title := p.article_title
        article_price := p.article_price
        article_worthy := p.article_worthy
        article_comment := p.article_comment
        article_id := p.article_id
        publish_date_lt := p.publish_date_lt
        article_url := p.article_url }

/-- Embeds `SmzdmCrawler.filterProduct` (src/app.js:189-228): the first
check is deduplication by JS truthiness of `this.pushedMap[item.article_id]`
(src/app.js:201), then `filterRest`. `now` is `Date.now()`. -/
def filterProduct (pushedMap : History) (now : Int) (p : Product) (rule : Rule) :
    Option Product :=
  if truthyOpt (hfind pushedMap p.article_id) then none
  else filterRest now p rule

/-- Result of one page request inside `processRule`: a successful response
(whose missing/empty `rows` is `ok []`) or a network/timeout error caught at
src/app.js:268. -/
inductive PageResult where
  | ok (rows : List Product)
  | err
deriving DecidableEq, Repr

/-- Why the pagination loop of `processRule` ended. -/
inductive StopReason where
  | emptyPage
  | satisfied
  | pageCap
deriving DecidableEq, Repr

/-- Observable outcome of one `processRule` call: accepted items, final
history, number of page fetch attempts, number of executed 1.5 s delays
(src/app.js:274), and the loop's stop reason. -/
structure RunResult where
  found : List Product
  hist : History
  fetches : Nat
  delays : Nat
  reason : StopReason
deriving DecidableEq, Repr

/-- The body of the `for (const row of rows)` loop (src/app.js:258-267): an
accepted item is appended to the accumulator and immediately recorded into
the history with the current `Date.now()`. -/
def rowStep (rule : Rule) (now : Int) (acc : List Product × History) (row : Product) :
    List Product × History :=
  match filterProduct acc.2 now row rule with
  | some it => (acc.1 ++ [it], hset acc.2 it.article_id now)
  | none => acc

/-- The early-stop test `foundItems.length >= this.config.satisfyNum`
(src/app.js:272): comparison with `undefined` is a `NaN` comparison, hence
`false`. -/
def satisfiedBy (cfg : Config) (n : Nat) : Bool :=
  match cfg.satisfyNum with
  | none => false
  | some s => decide ((n : ℚ) ≥ s)

/-- The `while (page < 5)` pagination loop of `SmzdmCrawler.processRule`
(src/app.js:241-275), recursing on the remaining iteration budget `fuel`
(initially 5). A successful page with no rows breaks before the early-stop
check; an error page skips straight to it; otherwise the rows run through
`rowStep`. A `break` skips the 1.5 s delay, but the path into the next
iteration (`page++; await delay`) always executes it — including the path
that then fails the `page < 5` test. -/
def pageLoop (cfg : Config) (rule : Rule) (pages : Nat → PageResult) (now : Int) :
    Nat → Nat → List Product → History → Nat → Nat → RunResult
  | 0, _, found, h, fetches, delays => ⟨found, h, fetches, delays, .pageCap⟩
  | fuel + 1, page, found, h, fetches, delays =>
    match pages page with
    | .ok rows =>
      if rows.isEmpty then ⟨found, h, fetches + 1, delays, .emptyPage⟩
      else
        let fh := rows.foldl (rowStep rule now) (found, h)
        if satisfiedBy cfg fh.1.length then ⟨fh.1, fh.2, fetches + 1, delays, .satisfied⟩
        else pageLoop cfg rule pages now fuel (page + 1) fh.1 fh.2 (fetches + 1) (delays + 1)
    | .err =>
      if satisfiedBy cfg found.length then ⟨found, h, fetches + 1, delays, .satisfied⟩
      else pageLoop cfg rule pages now fuel (page + 1) found h (fetches + 1) (delays + 1)

/-- Embeds `SmzdmCrawler.processRule` (src/app.js:230-277) for one rule:
run the pagination loop from page 0 with an empty accumulator over the
page oracle `pages`. -/
def processRule (cfg : Config) (rule : Rule) (pages : Nat → PageResult)
    (h : History) (now : Int) : RunResult :=
  pageLoop cfg rule pages now 5 0 [] h 0 0

/-- The history limit `PUSHED_HISTORY_LIMIT` (src/app.js:21). -/
def PUSHED_HISTORY_LIMIT : Nat := 5000

/-- Comparator `(a, b) => a[1] - b[1]` of src/app.js:82 as an order:
ascending by timestamp. -/
def valLE (a b : String × Int) : Prop := a.2 ≤ b.2

instance : DecidableRel valLE := fun a b => inferInstanceAs (Decidable (a.2 ≤ b.2))

instance : IsTotal (String × Int) valLE := ⟨fun a b => le_total a.2 b.2⟩

instance : IsTrans (String × Int) valLE := ⟨fun _ _ _ h1 h2 => le_trans h1 h2⟩

/-- JS `Object.fromEntries`: set each pair in order into a fresh object
(later duplicates of a key overwrite the value at its first position). -/
def fromEntries (l : List (String × Int)) : History :=
  l.foldl (fun acc kv => hset acc kv.1 kv.2) []

/-- Embeds `ConfigManager.savePushed` (src/app.js:75-94), returning the map
written to `pushed.json`: over the limit, sort `Object.entries` ascending by
timestamp (`Array.prototype.sort` is stable; `insertionSort` likewise),
`slice` off the oldest entries beyond the limit, and rebuild the object;
otherwise write the map unmodified. -/
def savePushed (pushedMap : History) : History :=
  if pushedMap.length > PUSHED_HISTORY_LIMIT then
    let historyArray := List.insertionSort valLE pushedMap
    let trimmedArray := historyArray.drop (historyArray.length - PUSHED_HISTORY_LIMIT)
    fromEntries trimmedArray
  else pushedMap

/-- The rule-source file content as the YAML layer sees it: either it parses
to a configuration or it does not. -/
inductive RawSource where
  | parsed (cfg : Config)
  | unparsable

/-- Outcome of `ConfigManager.load` (src/app.js:32-62): the `catch` branch
does not rethrow — it logs and calls `process.exit(1)` unconditionally, so
the function either returns a config or terminates the process. -/
inductive ConfigLoadResult where
  | ok (cfg : Config)
  | exited (code : Nat)
deriving DecidableEq, Repr

/-- Embeds `ConfigManager.load`: a parsable source yields the processed
config, an unparsable one reaches `process.exit(1)` (src/app.js:60). -/
def configLoad : RawSource → ConfigLoadResult
  | .parsed cfg => .ok cfg
  | .unparsable => .exited 1

/-- Outcome of one debounced watcher firing (src/app.js:310-325):
`swapped` = the `try` body completed and `crawlerInstance.config` was
replaced; `keptOld` = the `catch` branch ran and the old config stands;
`processDied` = the process terminated inside the attempt. -/
inductive ReloadOutcome where
  | swapped (cfg : Config)
  | keptOld (cfg : Config)
  | processDied (code : Nat)
deriving DecidableEq, Repr

/-- Embeds the reload attempt of `setupConfigWatcher` (src/app.js:312-323):
it calls `ConfigManager.load()` inside `try`/`catch`. Because `load` never
throws — its own `catch` calls `process.exit(1)` — the watcher's `catch`
(the `keptOld` outcome it was written for) is unreachable: an unparsable
source kills the process. -/
def watcherReload (cur : Config) (src : RawSource) : ReloadOutcome :=
  match configLoad src with
  | .ok c => .swapped c
  | .exited n =>
    match cur with
    | _ => .processDied n

/-- The `for (const rule of this.config.keywords)` loop of
`SmzdmCrawler.run` (src/app.js:281-284) with a hot-reload swap interleaved:
`for...of` evaluates the iterable expression once, so `captured` is the rule
array of the config active when the cycle started; the watcher firing before
iteration `idx = swapAt` replaces the `config` reference (`cur`) but not the
captured array. Returns the rules actually processed and the final config
reference. -/
def runCycleRulesAux : List Rule → Nat → Nat → Config → Config → List Rule →
    List Rule × Config
  | [], _, _, cur, _, acc => (acc, cur)
  | r :: rest, idx, swapAt, cur, newCfg, acc =>
    let cur' := if idx = swapAt then newCfg else cur
    runCycleRulesAux rest (idx + 1) swapAt cur' newCfg (acc ++ [r])

/-- One scan cycle of `SmzdmCrawler.run` at the granularity of which rules
get processed, with the watcher swapping in `c1` just before the rule at
position `swapAt` would start. -/
def runCycleRules (c0 : Config) (swapAt : Nat) (c1 : Config) : List Rule × Config :=
  runCycleRulesAux c0.keywords 0 swapAt c0 c1 []

/-- Modelled from the spec: the §2 data-flow paragraph says the crawl loop
"always reads the model reference at the start of processing each rule", so
a swap before position `swapAt` would make the remaining rules come from the
new rule set. This definition follows the spec's words, for comparison with
`runCycleRules`, which follows the source. -/
def runCycleRulesPerRuleRead (c0 c1 : Config) (swapAt : Nat) : List Rule :=
  c0.keywords.take swapAt ++ c1.keywords.drop swapAt

/-! Concrete fixtures used by counterexamples and witnesses. -/

/-- A minimal fresh product: no optional field present, so every
post-deduplication check of `filterProduct` passes. -/
def prodBare : Product :=
  { article_title := "A", article_price := none, article_worthy := none,
    article_comment := none, article_id := "1", publish_date_lt := none,
    article_url := "u" }

/-- A second fresh product with a different article id. -/
def prodB : Product :=
  { article_title := "B", article_price := none, article_worthy := none,
    article_comment := none, article_id := "2", publish_date_lt := none,
    article_url := "u" }

/-- The all-defaults rule (empty keyword object). -/
def ruleBare : Rule := {}

/-- Page oracle: one product on page 0, another on page 1, nothing after. -/
def pagesAB : Nat → PageResult := fun i =>
  if i == 0 then .ok [prodBare] else if i == 1 then .ok [prodB] else .ok []

/-- Page oracle: the same single-product page forever. -/
def pagesConstA : Nat → PageResult := fun _ => .ok [prodBare]

/-- Page oracle: every request fails. -/
def pagesErr : Nat → PageResult := fun _ => .err

/-- Page oracle: the first page is already empty. -/
def pagesEmpty : Nat → PageResult := fun _ => .ok []

/-! Helper lemmas. -/

/-- The rule-processing loop of `run` accumulates exactly the captured list:
the config swap updates the reference, never the iteration. -/
theorem runCycleRulesAux_processes_captured (l : List Rule) :
    ∀ (idx swapAt : Nat) (cur newCfg : Config) (acc : List Rule),
      (runCycleRulesAux l idx swapAt cur newCfg acc).1 = acc ++ l := by
  induction l with
  | nil => intro idx swapAt cur newCfg acc; simp [runCycleRulesAux]
  | cons r rest ih =>
    intro idx swapAt cur newCfg acc
    simp [runCycleRulesAux, ih]

/-! Claim C9. -/

/-- C9: the numeric field parsers on the specification's vectors:
`parsePrice("¥199.50 起") = 199.5`, `parsePrice(undefined) = 0`,
`parseCount("1.2万") = 1200`, `parseCount("15") = 15`,
`parseCount(null) = 0` (a number is `some`, absence of a number `none`). -/
theorem parsePrice_parseCount_values :
    parsePrice (some "¥199.50 起") = some ((399 : ℚ) / 2) ∧
    parsePrice none = some 0 ∧
    parseCount (some "1.2万") = some 1200 ∧
    parseCount (some "15") = some 15 ∧
    parseCount none = some 0 := by
  refine ⟨by with_unfolding_all rfl, rfl, by with_unfolding_all rfl,
    by with_unfolding_all rfl, rfl⟩

/-! Claim C2. -/

/-- C2: an unparsable rule source during a hot reload does NOT retain the
previous rule set — `ConfigManager.load` catches the parse error itself and
calls `process.exit(1)`, so the watcher's own catch/keep-old branch is dead
code and the process dies, whatever the currently active config is. -/
theorem watcherReload_unparsable_kills_process (cur : Config) :
    watcherReload cur RawSource.unparsable = ReloadOutcome.processDied 1 := rfl

/-! Claim C1. -/

/-- C1 (amended): an article id mapped to a truthy (nonzero) timestamp — as
every timestamp the program itself records is, being `Date.now()` epoch
milliseconds — is rejected by `filterProduct`, whatever the item's other
fields, the rule's parameters and the current time. -/
theorem filterProduct_rejects_truthy_history (h : History) (now : Int) (p : Product)
    (rule : Rule) (v : Int) (hv : hfind h p.article_id = some v) (hnz : v ≠ 0) :
    filterProduct h now p rule = none := by
  unfold filterProduct
  rw [hv]
  simp [truthyOpt, hnz]

/-- C1 witness: a concrete truthy history entry is rejected. -/
theorem filterProduct_rejects_truthy_history_witness :
    filterProduct [("1", 7)] 12 prodBare ruleBare = none :=
  filterProduct_rejects_truthy_history [("1", 7)] 12 prodBare ruleBare 7 rfl (by decide)

/-- C1 counterexample: with history `{"1": 0}` the id `"1"` IS a key of the
map, yet the dedup check (JS truthiness of the value) lets the item through
and `filterProduct` accepts it. -/
theorem filterProduct_zero_timestamp_accepted :
    (hfind [("1", 0)] prodBare.article_id).isSome = true ∧
    filterProduct [("1", 0)] 5 prodBare ruleBare = some prodBare :=
  ⟨rfl, rfl⟩

/-! Claim C3. -/

/-- C3 (amended): `run`'s `for...of` evaluates `this.config.keywords` once
at cycle start, so a mid-cycle rule-set swap changes the rules of NO rule of
the running cycle — the whole captured list is processed — and takes effect
only from the next cycle (as the reload log's "下次周期生效" states). -/
theorem runCycle_swap_leaves_current_cycle_unchanged (c0 : Config) (swapAt : Nat)
    (c1 : Config) :
    (runCycleRules c0 swapAt c1).1 = c0.keywords := by
  simp [runCycleRules, runCycleRulesAux_processes_captured]

/-- Two-rule config before the swap. -/
def cfgA : Config := { keywords := [{ keyword := some "a" }, { keyword := some "b" }] }

/-- Two-rule config after the swap (second rule differs). -/
def cfgB : Config := { keywords := [{ keyword := some "a" }, { keyword := some "c" }] }

/-- C3 counterexample: with a swap after the first of two rules, the cycle
processes the OLD second rule, not the new one the claimed per-rule read
would give. -/
theorem runCycle_not_per_rule_read :
    (runCycleRules cfgA 1 cfgB).1 ≠ runCycleRulesPerRuleRead cfgA cfgB 1 := by
  decide

/-! Claim C5. -/

/-- C5: the two-mode matcher: an empty (or absent) keyword accepts every
title; `re:(?i)abc` matches "XABCY" while `re:abc` does not (the `(?i)`
marker is stripped and becomes the `i` flag); a non-`re:` keyword is a
case-insensitive literal substring test. -/
theorem isTitleMatch_two_mode_spec (title : String) (rule : Rule) :
    ((rule.keyword = none ∨ rule.keyword = some "") → isTitleMatch title rule = true) ∧
    isTitleMatch "XABCY" { keyword := some "re:(?i)abc" } = true ∧
    isTitleMatch "XABCY" { keyword := some "re:abc" } = false ∧
    (∀ k, rule.keyword = some k → k ≠ "" → startsWithStr k "re:" = false →
      isTitleMatch title rule = includesStr (lowerStr title) (lowerStr k)) := by
  refine ⟨?_, by decide, by decide, ?_⟩
  · rintro (h | h) <;> simp [isTitleMatch, h]
  · intro k hk hne hs
    simp [isTitleMatch, hk, hne, hs]

/-! Claim C7. -/

/-- C7: `isTitleMatch` is total at its boundary: it always returns a
boolean, and a `re:` keyword whose stripped pattern fails to compile (the
modelled `new RegExp` throw) yields `false` — the catch branch — never an
unhandled failure. -/
theorem isTitleMatch_total_malformed_regex_false (title : String) (rule : Rule) :
    (isTitleMatch title rule = true ∨ isTitleMatch title rule = false) ∧
    (∀ k, rule.keyword = some k → startsWithStr k "re:" = true →
      compileRegex (regexPatternOf k).toList = none → isTitleMatch title rule = false) := by
  refine ⟨?_, ?_⟩
  · cases hb : isTitleMatch title rule
    · exact Or.inr rfl
    · exact Or.inl rfl
  · intro k hk hs hc
    by_cases he : k = ""
    · subst he
      exact absurd hs (by decide)
    · have hc2 : compileRegex (regexPatternOf k).data = none := hc
      simp [isTitleMatch, hk, he, hs, hc2]

/-! Claim C4 development: history trimming. -/

/-- Setting a key no entry of the object has appends a fresh own property. -/
theorem hset_of_not_mem (acc : History) (k : String) (v : Int)
    (hnk : ∀ q ∈ acc, q.1 ≠ k) : hset acc k v = acc ++ [(k, v)] := by
  induction acc with
  | nil => rfl
  | cons q rest ih =>
    obtain ⟨k', v'⟩ := q
    have hne : k' ≠ k := hnk (k', v') (List.mem_cons_self _ _)
    simp only [hset, if_neg hne, List.cons_append, List.cons.injEq, true_and]
    exact ih (fun q hq => hnk q (List.mem_cons_of_mem _ hq))

/-- Folding `hset` over pairs whose keys are fresh and pairwise distinct
appends them in order. -/
theorem foldl_hset_of_disjoint :
    ∀ (l acc : History), (∀ p ∈ l, ∀ q ∈ acc, q.1 ≠ p.1) →
      (l.map Prod.fst).Nodup →
      l.foldl (fun a kv => hset a kv.1 kv.2) acc = acc ++ l := by
  intro l
  induction l with
  | nil => intro acc _ _; simp
  | cons kv rest ih =>
    intro acc hdisj hnd
    obtain ⟨k, v⟩ := kv
    simp only [List.map_cons, List.nodup_cons, List.mem_map] at hnd
    rw [List.foldl_cons]
    have h1 : hset acc k v = acc ++ [(k, v)] :=
      hset_of_not_mem acc k v (fun q hq => hdisj (k, v) (List.mem_cons_self _ _) q hq)
    rw [h1, ih (acc ++ [(k, v)]) ?_ hnd.2]
    · simp
    · intro p hp q hq
      rcases List.mem_append.mp hq with hq | hq
      · exact hdisj p (List.mem_cons_of_mem _ hp) q hq
      · simp only [List.mem_singleton] at hq
        subst hq
        intro he
        exact hnd.1 ⟨p, hp, he.symm⟩

/-- JS `Object.fromEntries` on entries with pairwise distinct keys rebuilds
exactly the entry list. -/
theorem fromEntries_eq_self (l : History) (h : (l.map Prod.fst).Nodup) :
    fromEntries l = l := by
  unfold fromEntries
  rw [foldl_hset_of_disjoint l [] (by simp) h]
  simp

/-- Over the limit, `savePushed` is the timestamp-sorted array with the
oldest block dropped, and its size is exactly the limit. -/
theorem savePushed_gt (m : History) (hk : (m.map Prod.fst).Nodup)
    (hgt : m.length > PUSHED_HISTORY_LIMIT) :
    savePushed m =
      (List.insertionSort valLE m).drop (m.length - PUSHED_HISTORY_LIMIT) ∧
    (savePushed m).length = PUSHED_HISTORY_LIMIT := by
  have hperm := List.perm_insertionSort valLE m
  have hlen : (List.insertionSort valLE m).length = m.length := hperm.length_eq
  have hkeys : ((List.insertionSort valLE m).map Prod.fst).Nodup :=
    ((hperm.map Prod.fst).nodup_iff).mpr hk
  have heq : savePushed m =
      (List.insertionSort valLE m).drop (m.length - PUSHED_HISTORY_LIMIT) := by
    unfold savePushed
    rw [if_pos hgt]
    show fromEntries _ = _
    rw [hlen]
    apply fromEntries_eq_self
    rw [List.map_drop]
    exact List.Nodup.sublist (List.drop_sublist _ _) hkeys
  refine ⟨heq, ?_⟩
  rw [heq, List.length_drop, hlen]
  omega

/-- One JS property write grows the object by at most one entry. -/
theorem hset_length_le (h : History) (k : String) (v : Int) :
    (hset h k v).length ≤ h.length + 1 := by
  induction h with
  | nil => simp [hset]
  | cons q rest ih =>
    obtain ⟨k1, v1⟩ := q
    by_cases h1 : k1 = k
    · simp only [hset, if_pos h1, List.length_cons]
      omega
    · simp only [hset, if_neg h1, List.length_cons]
      omega

/-- Folding property writes grows the object by at most one entry per
pair. -/
theorem foldl_hset_length_le :
    ∀ (l acc : History),
      (l.foldl (fun a kv => hset a kv.1 kv.2) acc).length ≤ acc.length + l.length := by
  intro l
  induction l with
  | nil => intro acc; simp
  | cons kv t ih =>
    intro acc
    rw [List.foldl_cons]
    have h1 := hset_length_le acc kv.1 kv.2
    have h2 := ih (hset acc kv.1 kv.2)
    simp only [List.length_cons]
    omega

/-- JS `Object.fromEntries` never has more entries than its input list,
whatever duplicate keys it holds. -/
theorem fromEntries_length_le (l : History) : (fromEntries l).length ≤ l.length := by
  have h := foldl_hset_length_le l []
  unfold fromEntries
  simpa using h

/-! Claim C4. -/

/-- C4: for EVERY history map the persisted result has at most the limit
many entries, and a map at or under the limit is written unmodified; under
the spec's map invariants (unique keys, and — as the claim itself states
for the trimming case — pairwise distinct timestamps) a map of limit+1
entries keeps exactly the limit many entries, all drawn from the map, and
every dropped entry has a strictly smaller timestamp than every kept
one. -/
theorem savePushed_bounds_and_trims (m : History) :
    (savePushed m).length ≤ PUSHED_HISTORY_LIMIT ∧
    (m.length ≤ PUSHED_HISTORY_LIMIT → savePushed m = m) ∧
    ((m.map Prod.fst).Nodup → (m.map Prod.snd).Nodup →
      m.length = PUSHED_HISTORY_LIMIT + 1 →
      (savePushed m).length = PUSHED_HISTORY_LIMIT ∧
      (∀ x ∈ savePushed m, x ∈ m) ∧
      (∀ x ∈ savePushed m, ∀ y ∈ m, y ∉ savePushed m → y.2 < x.2)) := by
  have hsmall : ¬ m.length > PUSHED_HISTORY_LIMIT → savePushed m = m := by
    intro hle
    unfold savePushed
    rw [if_neg hle]
  refine ⟨?_, ?_, ?_⟩
  · by_cases hgt : m.length > PUSHED_HISTORY_LIMIT
    · have hb : savePushed m = fromEntries ((List.insertionSort valLE m).drop
          ((List.insertionSort valLE m).length - PUSHED_HISTORY_LIMIT)) := by
        unfold savePushed
        rw [if_pos hgt]
      have h1 := fromEntries_length_le ((List.insertionSort valLE m).drop
          ((List.insertionSort valLE m).length - PUSHED_HISTORY_LIMIT))
      have h2 : (((List.insertionSort valLE m).drop
          ((List.insertionSort valLE m).length - PUSHED_HISTORY_LIMIT))).length
          ≤ PUSHED_HISTORY_LIMIT := by
        rw [List.length_drop]
        omega
      rw [hb]
      omega
    · rw [hsmall hgt]
      omega
  · intro hle
    exact hsmall (by omega)
  · intro hk ht hlen
    have hgt : m.length > PUSHED_HISTORY_LIMIT := by omega
    obtain ⟨heq, hlen5000⟩ := savePushed_gt m hk hgt
    have hperm := List.perm_insertionSort valLE m
    have hsorted : List.Sorted valLE (List.insertionSort valLE m) :=
      List.sorted_insertionSort valLE m
    refine ⟨hlen5000, ?_, ?_⟩
    · intro x hx
      rw [heq] at hx
      exact hperm.mem_iff.mp (List.mem_of_mem_drop hx)
    · intro x hx y hy hyn
      rw [heq] at hx hyn
      have hys : y ∈ List.insertionSort valLE m := hperm.mem_iff.mpr hy
      have hyt : y ∈ (List.insertionSort valLE m).take (m.length - PUSHED_HISTORY_LIMIT) := by
        rcases List.mem_append.mp
            (by rw [List.take_append_drop]; exact hys :
              y ∈ (List.insertionSort valLE m).take (m.length - PUSHED_HISTORY_LIMIT) ++
                (List.insertionSort valLE m).drop (m.length - PUSHED_HISTORY_LIMIT)) with
          h | h
        · exact h
        · exact absurd h hyn
      have hle : y.2 ≤ x.2 := hsorted.rel_of_mem_take_of_mem_drop hyt hx
      have hxm : x ∈ m := hperm.mem_iff.mp (List.mem_of_mem_drop hx)
      have hne : y ≠ x := fun he => hyn (he ▸ hx)
      have hsne : y.2 ≠ x.2 := fun he =>
        hne (List.inj_on_of_nodup_map ht hy hxm he)
      exact lt_of_le_of_ne hle hsne

/-! Claims C6 and C10 development: pagination loop accounting. -/

/-- Delay/fetch bookkeeping of the pagination loop, relative to the entry
counters `f`/`d`: when the loop ends by exhausting the page budget, every
iteration ran the delay (delays grew exactly as fetches did, and the fetches
used the whole budget); when it ends by a `break` (empty page or early
stop), the breaking iteration skipped its delay (one more fetch than
delay). -/
theorem pageLoop_delay_count (cfg : Config) (rule : Rule) (pages : Nat → PageResult)
    (now : Int) :
    ∀ (fuel page : Nat) (found : List Product) (h : History) (f d : Nat)
      (res : RunResult), pageLoop cfg rule pages now fuel page found h f d = res →
      (res.reason = .pageCap → res.delays + f = res.fetches + d ∧ res.fetches = f + fuel) ∧
      (res.reason ≠ .pageCap → res.delays + f + 1 = res.fetches + d) := by
  intro fuel
  induction fuel with
  | zero =>
    intro page found h f d res hres
    simp only [pageLoop] at hres
    subst hres
    exact ⟨fun _ => ⟨by dsimp only; omega, by dsimp only; omega⟩, fun hne => absurd rfl hne⟩
  | succ fuel ih =>
    intro page found h f d res hres
    simp only [pageLoop] at hres
    cases hp : pages page with
    | ok rows =>
      rw [hp] at hres
      dsimp only at hres
      by_cases hre : rows.isEmpty
      · rw [if_pos hre] at hres
        subst hres
        refine ⟨fun hcap => ?_, fun _ => by dsimp only; omega⟩
        exact absurd hcap (by intro hc; cases hc)
      · rw [if_neg hre] at hres
        by_cases hs : satisfiedBy cfg (rows.foldl (rowStep rule now) (found, h)).1.length
        · rw [if_pos hs] at hres
          subst hres
          refine ⟨fun hcap => ?_, fun _ => by dsimp only; omega⟩
          exact absurd hcap (by intro hc; cases hc)
        · rw [if_neg hs] at hres
          obtain ⟨h1, h2⟩ := ih (page + 1) (rows.foldl (rowStep rule now) (found, h)).1
            (rows.foldl (rowStep rule now) (found, h)).2 (f + 1) (d + 1) res hres
          refine ⟨fun hcap => ?_, fun hne => ?_⟩
          · obtain ⟨ha, hb⟩ := h1 hcap
            exact ⟨by omega, by omega⟩
          · have := h2 hne
            omega
    | err =>
      rw [hp] at hres
      dsimp only at hres
      by_cases hs : satisfiedBy cfg found.length
      · rw [if_pos hs] at hres
        subst hres
        refine ⟨fun hcap => ?_, fun _ => by dsimp only; omega⟩
        exact absurd hcap (by intro hc; cases hc)
      · rw [if_neg hs] at hres
        obtain ⟨h1, h2⟩ := ih (page + 1) found h (f + 1) (d + 1) res hres
        refine ⟨fun hcap => ?_, fun hne => ?_⟩
        · obtain ⟨ha, hb⟩ := h1 hcap
          exact ⟨by omega, by omega⟩
        · have := h2 hne
          omega

/-- With no early-stop threshold configured (`satisfyNum` absent), the loop
never stops with reason `satisfied`. -/
theorem pageLoop_no_satisfy (cfg : Config) (rule : Rule) (pages : Nat → PageResult)
    (now : Int) (hcfg : cfg.satisfyNum = none) :
    ∀ (fuel page : Nat) (found : List Product) (h : History) (f d : Nat)
      (res : RunResult), pageLoop cfg rule pages now fuel page found h f d = res →
      res.reason ≠ .satisfied := by
  have hsat : ∀ n, satisfiedBy cfg n = false := fun n => by simp [satisfiedBy, hcfg]
  intro fuel
  induction fuel with
  | zero =>
    intro page found h f d res hres
    simp only [pageLoop] at hres
    subst hres
    intro hc
    cases hc
  | succ fuel ih =>
    intro page found h f d res hres
    simp only [pageLoop] at hres
    cases hp : pages page with
    | ok rows =>
      rw [hp] at hres
      dsimp only at hres
      by_cases hre : rows.isEmpty
      · rw [if_pos hre] at hres
        subst hres
        intro hc
        cases hc
      · rw [if_neg hre, hsat, if_neg (by simp)] at hres
        exact ih (page + 1) _ _ (f + 1) (d + 1) res hres
    | err =>
      rw [hp] at hres
      dsimp only at hres
      rw [hsat, if_neg (by simp)] at hres
      exact ih (page + 1) found h (f + 1) (d + 1) res hres

/-! Claim C6. -/

/-- C6 (amended): the 1.5 s inter-page delay is skipped when pagination
stops by a `break` — a zero-item page or the satisfy threshold — so there
the loop ran one more fetch than delay; but when pagination ends by the
5-page cap, the delay also runs once after the fifth and final fetch
(delays = fetches = 5), because `page++; await delay` precede the `while`
test. -/
theorem processRule_delay_accounting (cfg : Config) (rule : Rule)
    (pages : Nat → PageResult) (h : History) (now : Int) :
    ((processRule cfg rule pages h now).reason ≠ .pageCap →
      (processRule cfg rule pages h now).delays + 1 =
        (processRule cfg rule pages h now).fetches) ∧
    ((processRule cfg rule pages h now).reason = .pageCap →
      (processRule cfg rule pages h now).delays =
        (processRule cfg rule pages h now).fetches ∧
      (processRule cfg rule pages h now).fetches = 5) := by
  obtain ⟨h1, h2⟩ := pageLoop_delay_count cfg rule pages now 5 0 [] h 0 0
    (processRule cfg rule pages h now) rfl
  constructor
  · intro hne
    have := h2 hne
    omega
  · intro hcap
    obtain ⟨ha, hb⟩ := h1 hcap
    exact ⟨by omega, by omega⟩

/-- C6 counterexample: a run that ends by the page cap (nonempty pages, no
threshold) performs 5 fetches AND 5 delays — the delay after the final
fetched page is not skipped, contradicting the claim's `delays = fetches−1`
for cap-terminated pagination. -/
theorem processRule_delay_after_final_page_cap :
    (processRule { satisfyNum := none } ruleBare pagesConstA [] 5).fetches = 5 ∧
    (processRule { satisfyNum := none } ruleBare pagesConstA [] 5).delays = 5 :=
  ⟨rfl, rfl⟩

/-- When the early-stop check holds at every count (the `satisfyNum = 0`
situation), the very first iteration of the pagination loop breaks, whatever
page 0 returned. -/
theorem pageLoop_always_stops_first (cfg : Config) (rule : Rule)
    (pages : Nat → PageResult) (now : Int)
    (hsat : ∀ n : Nat, satisfiedBy cfg n = true) (fuel page : Nat)
    (found : List Product) (h : History) (f d : Nat) :
    (pageLoop cfg rule pages now (fuel + 1) page found h f d).fetches = f + 1 := by
  simp only [pageLoop]
  cases hp : pages page with
  | ok rows =>
    dsimp only
    by_cases hre : rows.isEmpty
    · rw [if_pos hre]
    · rw [if_neg hre, hsat, if_pos rfl]
  | err =>
    dsimp only
    rw [hsat, if_pos rfl]

/-! Claim C10. -/

/-- C10: with `satisfyNum` absent the `length >= undefined` check is a `NaN`
comparison and never stops pagination early — every run ends by a zero-item
page or the page cap; with `satisfyNum = 0` the check is true already at
zero accepted items, so pagination always stops after the first page fetch. -/
theorem satisfyNum_undefined_and_zero_semantics (cfg : Config) (rule : Rule)
    (pages : Nat → PageResult) (h : History) (now : Int) :
    (cfg.satisfyNum = none →
      (processRule cfg rule pages h now).reason = .emptyPage ∨
      (processRule cfg rule pages h now).reason = .pageCap) ∧
    (cfg.satisfyNum = some 0 → (processRule cfg rule pages h now).fetches = 1) := by
  constructor
  · intro hcfg
    have hns := pageLoop_no_satisfy cfg rule pages now hcfg 5 0 [] h 0 0 _ rfl
    cases hr : (processRule cfg rule pages h now).reason with
    | emptyPage => exact Or.inl rfl
    | satisfied => exact absurd hr hns
    | pageCap => exact Or.inr rfl
  · intro hcfg
    have hsat : ∀ n : Nat, satisfiedBy cfg n = true := by
      intro n
      simp only [satisfiedBy, hcfg, ge_iff_le, decide_eq_true_eq]
      exact Nat.cast_nonneg n
    exact pageLoop_always_stops_first cfg rule pages now hsat 4 0 [] h 0 0

/-! Claim C8 development: second-run idempotence machinery. -/

/-- Reading after a property write: the written key has the new value,
every other key is untouched. -/
theorem hfind_hset (h : History) (k : String) (v : Int) (k' : String) :
    hfind (hset h k v) k' = if k = k' then some v else hfind h k' := by
  induction h with
  | nil => simp [hset, hfind]
  | cons q rest ih =>
    obtain ⟨k1, v1⟩ := q
    by_cases h1 : k1 = k
    · subst h1
      by_cases h2 : k1 = k' <;> simp [hset, hfind, h2]
    · by_cases h2 : k1 = k'
      · have h1' : k' ≠ k := fun he => h1 (h2.trans he)
        have hkk : k ≠ k' := fun he => h1' he.symm
        simp [hset, hfind, h1', h2, hkk]
      · simp [hset, hfind, h1, h2, ih]

/-- History extension order: every id that reads truthy keeps reading
truthy. Growth of `pushedMap` during a run only strengthens deduplication. -/
def hExt (h h' : History) : Prop :=
  ∀ id, truthyOpt (hfind h id) = true → truthyOpt (hfind h' id) = true

theorem hExt_refl (h : History) : hExt h h := fun _ ht => ht

theorem hExt_trans {a b c : History} (h1 : hExt a b) (h2 : hExt b c) : hExt a c :=
  fun i ht => h2 i (h1 i ht)

/-- Recording an id with a nonzero timestamp extends the history truthily. -/
theorem hExt_hset (h : History) (k : String) (v : Int) (hv : v ≠ 0) :
    hExt h (hset h k v) := by
  intro id ht
  rw [hfind_hset]
  by_cases he : k = id
  · rw [if_pos he]
    simp [truthyOpt, hv]
  · rw [if_neg he]
    exact ht

/-- A rejection is stable under truthy history extension: the dedup check
can only reject more, and every later check ignores the history. -/
theorem filterProduct_none_mono {h h' : History} (hext : hExt h h') {now : Int}
    {p : Product} {rule : Rule} (hn : filterProduct h now p rule = none) :
    filterProduct h' now p rule = none := by
  unfold filterProduct at hn ⊢
  by_cases h1 : truthyOpt (hfind h' p.article_id) = true
  · rw [if_pos h1]
  · rw [if_neg h1]
    have h0 : ¬ truthyOpt (hfind h p.article_id) = true := fun ht => h1 (hext _ ht)
    rw [if_neg h0] at hn
    exact hn

/-- An accepted item is the product itself: the source copies exactly the
seven modelled fields into the returned object. -/
theorem filterProduct_some_eq {h : History} {now : Int} {p : Product} {rule : Rule}
    {it : Product} (hs : filterProduct h now p rule = some it) : it = p := by
  unfold filterProduct at hs
  by_cases h1 : truthyOpt (hfind h p.article_id) = true
  · rw [if_pos h1] at hs
    cases hs
  · rw [if_neg h1] at hs
    unfold filterRest at hs
    dsimp only at hs
    split_ifs at hs
    all_goals try cases hs
    rfl

/-- The per-row fold only extends the history truthily. -/
theorem foldl_rowStep_hExt (rule : Rule) (now : Int) (hnz : now ≠ 0) :
    ∀ (rows : List Product) (acc : List Product × History),
      hExt acc.2 ((rows.foldl (rowStep rule now) acc).2) := by
  intro rows
  induction rows with
  | nil => intro acc; exact hExt_refl _
  | cons r t ih =>
    intro acc
    rw [List.foldl_cons]
    refine hExt_trans ?_ (ih (rowStep rule now acc r))
    unfold rowStep
    cases hc : filterProduct acc.2 now r rule with
    | none => exact hExt_refl _
    | some it => exact hExt_hset _ _ _ hnz

/-- After the per-row fold, every processed row is rejected by
`filterProduct` against the fold's final history: a row either was rejected
already (stable under extension) or was accepted and its id recorded with
the truthy timestamp `now`. -/
theorem foldl_rowStep_rejects (rule : Rule) (now : Int) (hnz : now ≠ 0) :
    ∀ (rows : List Product) (acc : List Product × History),
      ∀ row ∈ rows,
        filterProduct ((rows.foldl (rowStep rule now) acc).2) now row rule = none := by
  intro rows
  induction rows with
  | nil =>
    intro acc row hr
    cases hr
  | cons r t ih =>
    intro acc row hr
    rw [List.foldl_cons]
    rcases List.mem_cons.mp hr with he | ht
    · subst he
      have hext2 : hExt ((rowStep rule now acc row).2)
          ((t.foldl (rowStep rule now) (rowStep rule now acc row)).2) :=
        foldl_rowStep_hExt rule now hnz t _
      cases hc : filterProduct acc.2 now row rule with
      | none =>
        have hext1 : hExt acc.2 ((rowStep rule now acc row).2) := by
          unfold rowStep
          rw [hc]
          exact hExt_refl _
        exact filterProduct_none_mono hext2 (filterProduct_none_mono hext1 hc)
      | some it =>
        have hid : it = row := filterProduct_some_eq hc
        have hstep : (rowStep rule now acc row).2 = hset acc.2 it.article_id now := by
          unfold rowStep
          rw [hc]
        have htr : truthyOpt (hfind (hset acc.2 it.article_id now) row.article_id) = true := by
          rw [hfind_hset, hid, if_pos rfl]
          simp [truthyOpt, hnz]
        have hrej : filterProduct ((rowStep rule now acc row).2) now row rule = none := by
          rw [hstep]
          unfold filterProduct
          rw [if_pos htr]
        exact filterProduct_none_mono hext2 hrej
    · exact ih (rowStep rule now acc r) row ht

/-- Rows that are all rejected leave the fold's accumulator unchanged. -/
theorem foldl_rowStep_fixed (rule : Rule) (now : Int) :
    ∀ (rows : List Product) (acc : List Product × History),
      (∀ row ∈ rows, filterProduct acc.2 now row rule = none) →
      rows.foldl (rowStep rule now) acc = acc := by
  intro rows
  induction rows with
  | nil =>
    intro acc _
    rfl
  | cons r t ih =>
    intro acc hall
    rw [List.foldl_cons]
    have h1 : rowStep rule now acc r = acc := by
      unfold rowStep
      rw [hall r (List.mem_cons_self _ _)]
    rw [h1]
    exact ih acc (fun row hr => hall row (List.mem_cons_of_mem _ hr))

/-- Over a whole pagination run the history only extends truthily. -/
theorem pageLoop_hExt (cfg : Config) (rule : Rule) (pages : Nat → PageResult)
    (now : Int) (hnz : now ≠ 0) :
    ∀ (fuel page : Nat) (found : List Product) (h : History) (f d : Nat)
      (res : RunResult), pageLoop cfg rule pages now fuel page found h f d = res →
      hExt h res.hist := by
  intro fuel
  induction fuel with
  | zero =>
    intro page found h f d res hres
    simp only [pageLoop] at hres
    subst hres
    exact hExt_refl h
  | succ fuel ih =>
    intro page found h f d res hres
    simp only [pageLoop] at hres
    cases hp : pages page with
    | ok rows =>
      rw [hp] at hres
      dsimp only at hres
      by_cases hre : rows.isEmpty
      · rw [if_pos hre] at hres
        subst hres
        exact hExt_refl h
      · rw [if_neg hre] at hres
        have hfold : hExt h ((rows.foldl (rowStep rule now) (found, h)).2) :=
          foldl_rowStep_hExt rule now hnz rows (found, h)
        by_cases hs : satisfiedBy cfg (rows.foldl (rowStep rule now) (found, h)).1.length
        · rw [if_pos hs] at hres
          subst hres
          exact hfold
        · rw [if_neg hs] at hres
          exact hExt_trans hfold (ih (page + 1) _ _ (f + 1) (d + 1) res hres)
    | err =>
      rw [hp] at hres
      dsimp only at hres
      by_cases hs : satisfiedBy cfg found.length
      · rw [if_pos hs] at hres
        subst hres
        exact hExt_refl h
      · rw [if_neg hs] at hres
        exact ih (page + 1) found h (f + 1) (d + 1) res hres

/-- Main first-run invariant: when a run does not stop by the satisfy
threshold, every row of every page inside the fetch window that is not cut
off by an earlier empty page is rejected by `filterProduct` against the
run's final history. -/
theorem pageLoop_rejects (cfg : Config) (rule : Rule) (pages : Nat → PageResult)
    (now : Int) (hnz : now ≠ 0) :
    ∀ (fuel page : Nat) (found : List Product) (h : History) (f d : Nat)
      (res : RunResult), pageLoop cfg rule pages now fuel page found h f d = res →
      res.reason ≠ .satisfied →
      ∀ i, page ≤ i → i < page + fuel →
        (∀ j, page ≤ j → j < i → pages j ≠ .ok []) →
        ∀ rows, pages i = .ok rows → ∀ row ∈ rows,
          filterProduct res.hist now row rule = none := by
  intro fuel
  induction fuel with
  | zero =>
    intro page found h f d res hres hnsat i hpi hif
    omega
  | succ fuel ih =>
    intro page found h f d res hres hnsat i hpi hif hguard rows hpage row hrow
    simp only [pageLoop] at hres
    cases hp : pages page with
    | ok rows0 =>
      rw [hp] at hres
      dsimp only at hres
      by_cases hre : rows0.isEmpty
      · rw [if_pos hre] at hres
        subst hres
        rw [List.isEmpty_iff] at hre
        by_cases hie : i = page
        · subst hie
          rw [hp, hre] at hpage
          injection hpage with he
          subst he
          cases hrow
        · have hlt : page < i := lt_of_le_of_ne hpi (fun he => hie he.symm)
          have : pages page ≠ .ok [] := hguard page le_rfl hlt
          exact absurd (hre ▸ hp) this
      · rw [if_neg hre] at hres
        by_cases hs : satisfiedBy cfg (rows0.foldl (rowStep rule now) (found, h)).1.length
        · rw [if_pos hs] at hres
          subst hres
          exact absurd rfl hnsat
        · rw [if_neg hs] at hres
          by_cases hie : i = page
          · subst hie
            rw [hp] at hpage
            injection hpage with he
            have hrow0 : row ∈ rows0 := by
              rw [he]
              exact hrow
            have h1 : filterProduct ((rows0.foldl (rowStep rule now) (found, h)).2) now row rule
                = none := foldl_rowStep_rejects rule now hnz rows0 (found, h) row hrow0
            have h2 : hExt ((rows0.foldl (rowStep rule now) (found, h)).2) res.hist :=
              pageLoop_hExt cfg rule pages now hnz fuel (i + 1) _ _ (f + 1) (d + 1) res hres
            exact filterProduct_none_mono h2 h1
          · have hpi' : page + 1 ≤ i :=
              Nat.succ_le_of_lt (lt_of_le_of_ne hpi (fun he => hie he.symm))
            refine ih (page + 1) _ _ (f + 1) (d + 1) res hres hnsat i hpi' (by omega) ?_
              rows hpage row hrow
            intro j hj1 hj2
            exact hguard j (by omega) hj2
    | err =>
      rw [hp] at hres
      dsimp only at hres
      by_cases hs : satisfiedBy cfg found.length
      · rw [if_pos hs] at hres
        subst hres
        exact absurd rfl hnsat
      · rw [if_neg hs] at hres
        by_cases hie : i = page
        · subst hie
          rw [hp] at hpage
          cases hpage
        · have hpi' : page + 1 ≤ i :=
            Nat.succ_le_of_lt (lt_of_le_of_ne hpi (fun he => hie he.symm))
          refine ih (page + 1) found h (f + 1) (d + 1) res hres hnsat i hpi' (by omega) ?_
            rows hpage row hrow
          intro j hj1 hj2
          exact hguard j (by omega) hj2

/-- Second-run lemma: if every row of every reachable page is already
rejected against a fixed history, a run started with an empty accumulator
finds nothing (and so never modifies the history). -/
theorem pageLoop_no_new (cfg : Config) (rule : Rule) (pages : Nat → PageResult)
    (now : Int) :
    ∀ (fuel page : Nat) (h : History) (f d : Nat),
      (∀ i, page ≤ i → i < page + fuel →
        (∀ j, page ≤ j → j < i → pages j ≠ .ok []) →
        ∀ rows, pages i = .ok rows → ∀ row ∈ rows,
          filterProduct h now row rule = none) →
      (pageLoop cfg rule pages now fuel page [] h f d).found = [] := by
  intro fuel
  induction fuel with
  | zero =>
    intro page h f d _
    rfl
  | succ fuel ih =>
    intro page h f d hall
    simp only [pageLoop]
    cases hp : pages page with
    | ok rows =>
      dsimp only
      by_cases hre : rows.isEmpty
      · rw [if_pos hre]
      · have hne : rows ≠ [] := fun he => hre (by rw [he]; rfl)
        have hrej : ∀ row ∈ rows, filterProduct h now row rule = none :=
          hall page le_rfl (by omega)
            (fun j hj1 hj2 => absurd (hj1.trans_lt hj2) (lt_irrefl _)) rows hp
        have hfix : rows.foldl (rowStep rule now) ([], h) = ([], h) :=
          foldl_rowStep_fixed rule now rows ([], h) hrej
        rw [if_neg hre, hfix]
        by_cases hs : satisfiedBy cfg (([] : List Product), h).1.length
        · rw [if_pos hs]
        · rw [if_neg hs]
          refine ih (page + 1) h (f + 1) (d + 1) ?_
          intro i hpi hif hguard rows' hpage row hrow
          refine hall i (by omega) (by omega) ?_ rows' hpage row hrow
          intro j hj1 hj2
          by_cases hj : j = page
          · subst hj
            rw [hp]
            intro he
            injection he with he2
            exact hne he2
          · exact hguard j (by omega) hj2
    | err =>
      dsimp only
      by_cases hs : satisfiedBy cfg (List.length ([] : List Product))
      · rw [if_pos hs]
      · rw [if_neg hs]
        refine ih (page + 1) h (f + 1) (d + 1) ?_
        intro i hpi hif hguard rows' hpage row hrow
        refine hall i (by omega) (by omega) ?_ rows' hpage row hrow
        intro j hj1 hj2
        by_cases hj : j = page
        · subst hj
          rw [hp]
          intro he
          cases he
        · exact hguard j (by omega) hj2

/-! Claim C8. -/

/-- C8 (amended): running `processRule` twice against an unchanged page
oracle, with no intervening reload and a truthy clock, yields zero new items
the second time PROVIDED the first run did not stop early at the satisfy
threshold: every row the first run saw is rejected against its final history
(accepted ids were recorded; other rejections are stable), and the second
run cannot reach pages past the first run's stopping point. -/
theorem processRule_rerun_no_new_items (cfg : Config) (rule : Rule)
    (pages : Nat → PageResult) (h0 : History) (now : Int) (hnz : now ≠ 0)
    (hr : (processRule cfg rule pages h0 now).reason ≠ .satisfied) :
    (processRule cfg rule pages (processRule cfg rule pages h0 now).hist now).found = [] := by
  show (pageLoop cfg rule pages now 5 0 [] (processRule cfg rule pages h0 now).hist 0 0).found
    = []
  apply pageLoop_no_new
  intro i hi0 hi5 hguard rows hpage row hrow
  exact pageLoop_rejects cfg rule pages now hnz 5 0 [] h0 0 0 _ rfl hr
    i hi0 hi5 hguard rows hpage row hrow

/-- C8 witness: a concrete non-early-stopped first run (all pages err, no
threshold) makes the second run find nothing. -/
theorem processRule_rerun_no_new_items_witness :
    (processRule { satisfyNum := none } ruleBare pagesErr
      ((processRule { satisfyNum := none } ruleBare pagesErr [] 1).hist) 1).found = [] :=
  processRule_rerun_no_new_items { satisfyNum := none } ruleBare pagesErr [] 1
    (by decide) (by decide)

/-- C8 counterexample: with `satisfyNum = 1`, the first run stops on page 0
after accepting the page-0 item and never fetches page 1; the second run
dedups page 0, continues to page 1 and accepts a NEW item — the claimed
unconditional zero-new-items idempotence fails. -/
theorem processRule_rerun_new_items_after_early_stop :
    (processRule { satisfyNum := some 1 } ruleBare pagesAB
      ((processRule { satisfyNum := some 1 } ruleBare pagesAB [] 5).hist) 5).found
      = [prodB] ∧ ([prodB] : List Product) ≠ [] := by
  refine ⟨rfl, ?_⟩
  intro he
  cases he
